import Mathlib

/-!
# Verification of `rtb_utils.crypto_price`

A shallow embedding of `src/rtb_utils/crypto_price.py` (DoubleClick-style
price encryption/decryption) over `List Nat` byte strings, together with
proofs of the specified properties.

Python 2 `str` values are modelled as `List Nat` whose elements are the
character codes (bytes, i.e. values `< 256`).  Fallible operations return
`Option`/`Except`.  The library primitives the source relies on
(`hashlib.sha1`, `hmac`, `base64.urlsafe_b64encode/decode` including the
lenient CPython 2 `binascii.a2b_base64` behaviour) are modelled
faithfully from their reference behaviour.
-/

namespace CryptoPrice

/-! ## Constants (crypto_price.py lines 15-18) -/

def IV_SIZE : Nat := 16

def CIPHERTEXT_SIZE : Nat := 8

def SIGNATURE_SIZE : Nat := 4

def BLOCK_SIZE : Nat := 20

/-! ## Byte-string helpers -/

/-- Big-endian byte representation of `x`, exactly `n` bytes (truncating
to the low `8*n` bits). -/
def toBytesBE : Nat → Nat → List Nat
  | 0, _ => []
  | n + 1, x => toBytesBE n (x / 256) ++ [x % 256]

/-- Interpret a byte string as a big-endian unsigned integer.  This is
the direct interpretation the spec's data model describes for prices. -/
def bytes_to_int_be (b : List Nat) : Nat :=
  b.foldl (fun acc x => acc * 256 + x) 0

/-! ## SHA-1 (model of `hashlib.sha1`)

The source delegates hashing to `hashlib.sha1`; this is a byte-level
model of that primitive (FIPS 180-1). -/

/-- 32-bit left rotation. -/
def ROTL (n x : Nat) : Nat := ((x <<< n) ||| (x >>> (32 - n))) % 2 ^ 32

/-- SHA-1 round function. -/
def sha1F (t b c d : Nat) : Nat :=
  if t < 20 then (b &&& c) ||| ((b ^^^ 0xffffffff) &&& d)
  else if t < 40 then b ^^^ c ^^^ d
  else if t < 60 then (b &&& c) ||| (b &&& d) ||| (c &&& d)
  else b ^^^ c ^^^ d

/-- SHA-1 round constants. -/
def sha1K (t : Nat) : Nat :=
  if t < 20 then 0x5A827999
  else if t < 40 then 0x6ED9EBA1
  else if t < 60 then 0x8F1BBCDC
  else 0xCA62C1D6

/-- Merkle–Damgård padding: append `0x80`, zeros, and the 64-bit
big-endian bit length, to a multiple of 64 bytes. -/
def sha1Pad (msg : List Nat) : List Nat :=
  msg ++ 128 :: (List.replicate ((119 - msg.length % 64) % 64) 0 ++ toBytesBE 8 (8 * msg.length))

/-- Big-endian 32-bit words of a byte string. -/
def wordsOfBytes (l : List Nat) : List Nat :=
  (List.range (l.length / 4)).map fun i =>
    l.getD (4 * i) 0 * 2 ^ 24 + l.getD (4 * i + 1) 0 * 2 ^ 16 +
      l.getD (4 * i + 2) 0 * 2 ^ 8 + l.getD (4 * i + 3) 0

/-- One SHA-1 compression step over a 64-byte block.  The 80-word
message schedule is built most-recent-first (`ws.getD 2/7/13/15` are
`w[t-3]`, `w[t-8]`, `w[t-14]`, `w[t-16]`) and reversed once at the
end. -/
def sha1Block (h : Nat × Nat × Nat × Nat × Nat) (block : List Nat) :
    Nat × Nat × Nat × Nat × Nat :=
  let w := ((List.range 64).foldl
    (fun ws _ => ROTL 1 (ws.getD 2 0 ^^^ ws.getD 7 0 ^^^ ws.getD 13 0 ^^^ ws.getD 15 0) :: ws)
    (wordsOfBytes block).reverse).reverse
  let st := (List.range 80).foldl
    (fun (st : Nat × Nat × Nat × Nat × Nat) t =>
      ((ROTL 5 st.1 + sha1F t st.2.1 st.2.2.1 st.2.2.2.1 + st.2.2.2.2 +
          w.getD t 0 + sha1K t) % 2 ^ 32,
        st.1, ROTL 30 st.2.1, st.2.2.1, st.2.2.2.1))
    h
  ((h.1 + st.1) % 2 ^ 32, (h.2.1 + st.2.1) % 2 ^ 32, (h.2.2.1 + st.2.2.1) % 2 ^ 32,
    (h.2.2.2.1 + st.2.2.2.1) % 2 ^ 32, (h.2.2.2.2 + st.2.2.2.2) % 2 ^ 32)

/-- SHA-1 digest (20 bytes) of a byte string. -/
def sha1 (msg : List Nat) : List Nat :=
  let padded := sha1Pad msg
  let blocks := (List.range (padded.length / 64)).map fun i => (padded.drop (64 * i)).take 64
  let h := blocks.foldl sha1Block (0x67452301, 0xEFCDAB89, 0x98BADCFE, 0x10325476, 0xC3D2E1F0)
  toBytesBE 4 h.1 ++ toBytesBE 4 h.2.1 ++ toBytesBE 4 h.2.2.1 ++
    toBytesBE 4 h.2.2.2.1 ++ toBytesBE 4 h.2.2.2.2

/-- `my_hmac` (crypto_price.py lines 43-45): HMAC-SHA1 digest, modelling
Python 2's `hmac.new(k, d, hashlib.sha1).digest()` (block size 64). -/
def my_hmac (k d : List Nat) : List Nat :=
  let k1 := if 64 < k.length then sha1 k else k
  let k0 := k1 ++ List.replicate (64 - k1.length) 0
  sha1 ((k0.map fun b => b ^^^ 0x5c) ++ sha1 ((k0.map fun b => b ^^^ 0x36) ++ d))

/-! ## Web-safe Base64 transport codec

Models of `base64.urlsafe_b64encode` / `base64.urlsafe_b64decode` from
the Python 2 standard library (the latter delegating to the lenient
CPython 2 `binascii.a2b_base64`), plus the source's own helpers
`padding` / `webSafeAndUnPad` (crypto_price.py lines 47-66). -/

/-- The URL-safe Base64 alphabet: sextet value to character code
(`A-Z a-z 0-9 - _`). -/
def b64Char (n : Nat) : Nat :=
  if n < 26 then 65 + n
  else if n < 52 then 71 + n
  else if n < 62 then n - 4
  else if n = 62 then 45
  else 95

/-- `base64.urlsafe_b64encode`: standard Base64 with the URL-safe
alphabet and `=` (61) padding. -/
def urlsafe_b64encode : List Nat → List Nat
  | b1 :: b2 :: b3 :: rest =>
    b64Char (b1 / 4) :: b64Char (b1 % 4 * 16 + b2 / 16) ::
      b64Char (b2 % 16 * 4 + b3 / 64) :: b64Char (b3 % 64) :: urlsafe_b64encode rest
  | [b1, b2] => [b64Char (b1 / 4), b64Char (b1 % 4 * 16 + b2 / 16), b64Char (b2 % 16 * 4), 61]
  | [b1] => [b64Char (b1 / 4), b64Char (b1 % 4 * 16), 61, 61]
  | [] => []

/-- The standard-alphabet sextet table of `binascii.a2b_base64`
(CPython's `table_a2b_base64`; note the pad character `=` maps to `0`
there, though pads are intercepted before the table is consulted). -/
def table_a2b (c : Nat) : Option Nat :=
  if 65 ≤ c ∧ c ≤ 90 then some (c - 65)
  else if 97 ≤ c ∧ c ≤ 122 then some (c - 71)
  else if 48 ≤ c ∧ c ≤ 57 then some (c + 4)
  else if c = 43 then some 62
  else if c = 47 then some 63
  else if c = 61 then some 0
  else none

/-- CPython's `binascii_find_valid(p, n, 1)` relative to the character
after the current one: the first character of `rest` that the table
recognises (pads included). -/
def findValid : List Nat → Option Nat
  | [] => none
  | c :: rest => if c ≤ 127 ∧ (table_a2b c).isSome then some c else findValid rest

/-- The accumulator loop of CPython 2's `binascii.a2b_base64`: invalid
characters are skipped, a pad ends the input only at quad positions 2
(when followed by another pad) or 3, six bits are shifted in per valid
character, and `none` (the `Incorrect padding` error) is returned iff
bits are left over at the end. -/
def a2b_aux : List Nat → Nat → Nat → Nat → List Nat → Option (List Nat)
  | [], _, _, leftbits, acc =>
      if leftbits = 0 then some acc.reverse else none
  | c :: rest, quad_pos, leftchar, leftbits, acc =>
      if 127 < c ∨ c = 13 ∨ c = 10 ∨ c = 32 then
        a2b_aux rest quad_pos leftchar leftbits acc
      else if c = 61 then
        if quad_pos < 2 ∨ (quad_pos = 2 ∧ findValid rest ≠ some 61) then
          a2b_aux rest quad_pos leftchar leftbits acc
        else some acc.reverse
      else
        match table_a2b c with
        | none => a2b_aux rest quad_pos leftchar leftbits acc
        | some v =>
          if 8 ≤ leftbits + 6 then
            a2b_aux rest ((quad_pos + 1) % 4) ((leftchar * 64 + v) % 2 ^ (leftbits + 6 - 8))
              (leftbits + 6 - 8) ((leftchar * 64 + v) / 2 ^ (leftbits + 6 - 8) % 256 :: acc)
          else
            a2b_aux rest ((quad_pos + 1) % 4) (leftchar * 64 + v) (leftbits + 6) acc

/-- `binascii.a2b_base64` on a character string. -/
def a2b_base64 (s : List Nat) : Option (List Nat) :=
  a2b_aux s 0 0 0 []

/-- `base64.urlsafe_b64decode`: translate `-` to `+` and `_` to `/`,
then decode with the standard alphabet. -/
def urlsafe_b64decode (s : List Nat) : Option (List Nat) :=
  a2b_base64 ((s.map fun c => if c = 45 then 43 else c).map fun c => if c = 95 then 47 else c)

/-- `padding` (crypto_price.py lines 47-53): restore stripped `=`
padding from the length mod 4. -/
def padding (s : List Nat) : List Nat :=
  if s.length % 4 = 2 then s ++ [61, 61]
  else if s.length % 4 = 3 then s ++ [61]
  else s

/-- `webSafeAndUnPad` (crypto_price.py lines 59-60): replace `+` with
`-` and `/` with `_`, and strip trailing `=`. -/
def webSafeAndUnPad (s : List Nat) : List Nat :=
  ((((s.map fun c => if c = 43 then 45 else c).map fun c => if c = 47 then 95 else c).reverse.dropWhile
    fun c => c = 61).reverse)

/-- `websafe_base64_decode` (crypto_price.py lines 62-63). -/
def websafe_base64_decode (s : List Nat) : Option (List Nat) :=
  urlsafe_b64decode (padding s)

/-- `websafe_base64_encode` (crypto_price.py lines 65-66). -/
def websafe_base64_encode (s : List Nat) : List Nat :=
  webSafeAndUnPad (urlsafe_b64encode s)

/-! ## Cipher core (crypto_price.py lines 25-142) -/

/-- `split_encoded_price` (lines 25-41): slice the decoded buffer at the
fixed offsets 16, 24, 28 (Python slices truncate silently). -/
def split_encoded_price (s : List Nat) : List Nat × List Nat × List Nat :=
  (s.take IV_SIZE, (s.drop IV_SIZE).take CIPHERTEXT_SIZE,
    (s.drop (IV_SIZE + CIPHERTEXT_SIZE)).take SIGNATURE_SIZE)

/-- `sxor` (lines 68-79): byte-wise XOR of the first `length` characters
of the two strings; `none` models the `IndexError` raised when either
string is shorter than `length`. -/
def sxor (s1 s2 : List Nat) (length : Nat := CIPHERTEXT_SIZE) : Option (List Nat) :=
  if length ≤ s1.length ∧ length ≤ s2.length then
    some ((List.range length).map fun i => s1.getD i 0 ^^^ s2.getD i 0)
  else none

/-- The distinct failure values of the two operations: transport
decoding failure, the `ciphertext_size > 0` assertion, an `IndexError`
inside `sxor`, the signature-mismatch assertion, the final-message
length assertion, and the spec's `InvalidInput` precondition failure. -/
inductive PriceError : Type
  | malformedToken
  | assertCiphertext
  | indexError
  | integrityError
  | assertLength
  | invalidInput
deriving DecidableEq, Repr

/-- `decrypt` (lines 83-116). -/
def decrypt (encoded_price e_key i_key : List Nat) : Except PriceError (List Nat) :=
  match websafe_base64_decode encoded_price with
  | none => .error .malformedToken
  | some enc_price =>
    let iv := (split_encoded_price enc_price).1
    let p := (split_encoded_price enc_price).2.1
    let sig := (split_encoded_price enc_price).2.2
    let ciphertext_size : Int := (enc_price.length : Int) - IV_SIZE - SIGNATURE_SIZE
    if ciphertext_size ≤ 0 then .error .assertCiphertext
    else
      let price_pad := my_hmac e_key iv
      match sxor p price_pad with
      | none => .error .indexError
      | some price =>
        let conf_sig := (my_hmac i_key (price ++ iv)).take SIGNATURE_SIZE
        if conf_sig = sig then .ok price else .error .integrityError

/-- The hexadecimal digit characters of `str.encode('hex')`
(lower-case). -/
def hexDigit (n : Nat) : Nat := if n < 10 then 48 + n else 87 + n

/-- `str.encode('hex')`: two lower-case hex digits per byte. -/
def hex_encode (b : List Nat) : List Nat :=
  b.foldr (fun x acc => hexDigit (x / 16) :: hexDigit (x % 16) :: acc) []

/-- The value of one hexadecimal digit character, as `int(_, 16)` reads
it. -/
def hexVal (c : Nat) : Nat :=
  if c ≤ 57 then c - 48 else if c ≤ 70 then c - 55 else c - 87

/-- `int(s, 16)` on a hex-digit string. -/
def int_of_hex (s : List Nat) : Nat :=
  s.foldl (fun acc c => acc * 16 + hexVal c) 0

/-- `decrypt_price` (lines 118-120): decrypt, then convert the price
bytes to an integer through the hexadecimal round-trip
`int(decode_bytes.encode('hex'), 16)`. -/
def decrypt_price (encoded_price e_key i_key : List Nat) : Except PriceError Nat :=
  (decrypt encoded_price e_key i_key).map fun decode_bytes => int_of_hex (hex_encode decode_bytes)

/-- `encrypt` (lines 122-142): mask the price bytes, sign, assert the
28-byte frame length population, and transport-encode. -/
def encrypt (price e_key i_key iv : List Nat) : Except PriceError (List Nat) :=
  let pad := (my_hmac e_key iv).take BLOCK_SIZE
  match sxor pad price with
  | none => .error .indexError
  | some enc_price =>
    let sig := (my_hmac i_key (price ++ iv)).take SIGNATURE_SIZE
    if (iv ++ enc_price ++ sig).length = 28 then
      .ok (websafe_base64_encode (iv ++ enc_price ++ sig))
    else .error .assertLength

/-- Modelled from the spec: `encrypt_price` is exported in `__all__`
(crypto_price.py line 21) but its definition is absent from the source;
the spec (§6) gives its contract: it takes the price as an unsigned
integer, fails with `InvalidInput` if `iv` is not exactly 16 bytes or
the price does not fit in 8 bytes, and otherwise encrypts the 8-byte
big-endian price bytes with `encrypt`. -/
def encrypt_price (price : Nat) (e_key i_key iv : List Nat) : Except PriceError (List Nat) :=
  if iv.length ≠ IV_SIZE ∨ 2 ^ (8 * CIPHERTEXT_SIZE) ≤ price then .error .invalidInput
  else encrypt (toBytesBE CIPHERTEXT_SIZE price) e_key i_key iv

/-! ## Basic lemmas: bytes, integers, hex -/

theorem length_toBytesBE (n x : Nat) : (toBytesBE n x).length = n := by
  induction n generalizing x with
  | zero => rfl
  | succ n ih => simp [toBytesBE, ih]

theorem mem_toBytesBE_lt {n x y : Nat} (h : y ∈ toBytesBE n x) : y < 256 := by
  induction n generalizing x with
  | zero => simp [toBytesBE] at h
  | succ n ih =>
    simp only [toBytesBE, List.mem_append, List.mem_singleton] at h
    rcases h with h | h
    · exact ih h
    · omega

theorem bytes_to_int_be_append (l : List Nat) (b : Nat) :
    bytes_to_int_be (l ++ [b]) = bytes_to_int_be l * 256 + b := by
  simp [bytes_to_int_be, List.foldl_append]

theorem bytes_to_int_be_toBytesBE (n x : Nat) :
    bytes_to_int_be (toBytesBE n x) = x % 2 ^ (8 * n) := by
  induction n generalizing x with
  | zero => simp [toBytesBE, bytes_to_int_be, Nat.mod_one]
  | succ n ih =>
    have hp : 2 ^ (8 * (n + 1)) = 256 * 2 ^ (8 * n) := by
      have h8 : 8 * (n + 1) = 8 + 8 * n := by ring
      rw [h8, pow_add]; norm_num
    rw [toBytesBE, bytes_to_int_be_append, ih, hp, Nat.mod_mul]
    omega

theorem hexVal_hexDigit (d : Nat) (hd : d < 16) : hexVal (hexDigit d) = d := by
  revert d hd; decide

theorem int_of_hex_hex_encode_aux (b : List Nat) :
    ∀ acc, (∀ x ∈ b, x < 256) →
      (hex_encode b).foldl (fun a c => a * 16 + hexVal c) acc =
        b.foldl (fun a x => a * 256 + x) acc := by
  induction b with
  | nil => intro acc _; rfl
  | cons x rest ih =>
    intro acc hb
    have hx : x < 256 := hb x (List.mem_cons_self x rest)
    simp only [hex_encode, List.foldr_cons, List.foldl_cons] at *
    rw [ih _ (fun y hy => hb y (List.mem_cons_of_mem x hy))]
    rw [hexVal_hexDigit _ (by omega), hexVal_hexDigit _ (by omega)]
    have : (acc * 16 + x / 16) * 16 + x % 16 = acc * 256 + x := by omega
    rw [this]

/-- The source's hexadecimal round-trip `int(b.encode('hex'), 16)` agrees
with the direct big-endian integer interpretation of the bytes. -/
theorem int_of_hex_hex_encode (b : List Nat) (hb : ∀ x ∈ b, x < 256) :
    int_of_hex (hex_encode b) = bytes_to_int_be b :=
  int_of_hex_hex_encode_aux b 0 hb

theorem xor_lt_256 {a b : Nat} (ha : a < 256) (hb : b < 256) : a ^^^ b < 256 := by
  have h : Nat.bitwise bne a b < 2 ^ 8 := Nat.bitwise_lt (by norm_num; omega) (by norm_num; omega)
  simpa [HXor.hXor, Xor.xor, Nat.xor] using h

theorem getD_lt_256 {l : List Nat} (h : ∀ x ∈ l, x < 256) (i : Nat) : l.getD i 0 < 256 := by
  rw [List.getD_eq_getElem?_getD]
  cases hx : l[i]? with
  | none => simp
  | some a => simpa using h a (List.getElem?_mem hx)

theorem getD_range_map (n i : Nat) (f : Nat → Nat) (h : i < n) :
    ((List.range n).map f).getD i 0 = f i := by
  rw [List.getD_eq_getElem?_getD, List.getElem?_map, List.getElem?_range h]; rfl

/-! ## Basic lemmas: SHA-1 / HMAC output shape -/

theorem length_sha1 (msg : List Nat) : (sha1 msg).length = 20 := by
  simp [sha1, length_toBytesBE]

theorem mem_sha1_lt {msg : List Nat} {y : Nat} (h : y ∈ sha1 msg) : y < 256 := by
  simp only [sha1, List.mem_append] at h
  rcases h with ((((h | h) | h) | h) | h) <;> exact mem_toBytesBE_lt h

theorem length_my_hmac (k d : List Nat) : (my_hmac k d).length = 20 := by
  simp [my_hmac, length_sha1]

theorem mem_my_hmac_lt {k d : List Nat} {y : Nat} (h : y ∈ my_hmac k d) : y < 256 := by
  simp only [my_hmac] at h
  exact mem_sha1_lt h

theorem getD_my_hmac_lt (k d : List Nat) (i : Nat) : (my_hmac k d).getD i 0 < 256 :=
  getD_lt_256 (fun _ hx => mem_my_hmac_lt hx) i

/-! ## Basic lemmas: `sxor` -/

theorem sxor_eq_some (s1 s2 : List Nat) (n : Nat) (h1 : n ≤ s1.length) (h2 : n ≤ s2.length) :
    sxor s1 s2 n = some ((List.range n).map fun i => s1.getD i 0 ^^^ s2.getD i 0) := by
  simp [sxor, h1, h2]

theorem sxor_eq_none (s1 s2 : List Nat) (n : Nat) (h : ¬(n ≤ s1.length ∧ n ≤ s2.length)) :
    sxor s1 s2 n = none := by
  simp only [sxor, if_neg h]

/-! ## Base64 lemmas -/

/-- The character translation `urlsafe_b64decode` applies before the
standard-alphabet decode (`-` to `+`, `_` to `/`), as one function. -/
def dtr (c : Nat) : Nat :=
  if (if c = 45 then 43 else c) = 95 then 47 else if c = 45 then 43 else c

theorem urlsafe_b64decode_eq (s : List Nat) : urlsafe_b64decode s = a2b_base64 (s.map dtr) := by
  rw [urlsafe_b64decode, List.map_map]
  rfl

theorem b64Char_ne (s : Nat) : b64Char s ≠ 43 ∧ b64Char s ≠ 47 ∧ b64Char s ≠ 61 := by
  simp only [b64Char]
  split_ifs <;> omega

/-- For every sextet value, the translated encoding character is a
character the decoder's table maps back to that value, and it triggers
none of the skip or pad branches. -/
theorem dch_facts : ∀ s, s < 64 →
    ¬(127 < dtr (b64Char s) ∨ dtr (b64Char s) = 13 ∨ dtr (b64Char s) = 10 ∨
        dtr (b64Char s) = 32) ∧
      dtr (b64Char s) ≠ 61 ∧ table_a2b (dtr (b64Char s)) = some s := by
  decide

theorem dtr_61 : dtr 61 = 61 := by decide

theorem a2b_aux_cons_data {c v : Nat} (rest : List Nat) (qp lc lb : Nat) (acc : List Nat)
    (hskip : ¬(127 < c ∨ c = 13 ∨ c = 10 ∨ c = 32)) (hpad : c ≠ 61)
    (htab : table_a2b c = some v) :
    a2b_aux (c :: rest) qp lc lb acc =
      if 8 ≤ lb + 6 then
        a2b_aux rest ((qp + 1) % 4) ((lc * 64 + v) % 2 ^ (lb + 6 - 8)) (lb + 6 - 8)
          ((lc * 64 + v) / 2 ^ (lb + 6 - 8) % 256 :: acc)
      else a2b_aux rest ((qp + 1) % 4) (lc * 64 + v) (lb + 6) acc := by
  simp only [a2b_aux, if_neg hskip, if_neg hpad, htab]

/-- Processing one full quad of data characters from the neutral state
emits three bytes and returns to the neutral state. -/
theorem a2b_aux_quad {c1 c2 c3 c4 v1 v2 v3 v4 e1 e2 e3 : Nat}
    (f1 : ¬(127 < c1 ∨ c1 = 13 ∨ c1 = 10 ∨ c1 = 32)) (p1 : c1 ≠ 61)
    (t1 : table_a2b c1 = some v1)
    (f2 : ¬(127 < c2 ∨ c2 = 13 ∨ c2 = 10 ∨ c2 = 32)) (p2 : c2 ≠ 61)
    (t2 : table_a2b c2 = some v2)
    (f3 : ¬(127 < c3 ∨ c3 = 13 ∨ c3 = 10 ∨ c3 = 32)) (p3 : c3 ≠ 61)
    (t3 : table_a2b c3 = some v3)
    (f4 : ¬(127 < c4 ∨ c4 = 13 ∨ c4 = 10 ∨ c4 = 32)) (p4 : c4 ≠ 61)
    (t4 : table_a2b c4 = some v4)
    (hv1 : v1 < 64) (hv2 : v2 < 64) (hv3 : v3 < 64) (hv4 : v4 < 64)
    (he1 : e1 = v1 * 4 + v2 / 16) (he2 : e2 = v2 % 16 * 16 + v3 / 4)
    (he3 : e3 = v3 % 4 * 64 + v4) (rest acc : List Nat) :
    a2b_aux (c1 :: c2 :: c3 :: c4 :: rest) 0 0 0 acc =
      a2b_aux rest 0 0 0 (e3 :: e2 :: e1 :: acc) := by
  rw [a2b_aux_cons_data _ _ _ _ _ f1 p1 t1]
  norm_num
  rw [a2b_aux_cons_data _ _ _ _ _ f2 p2 t2]
  norm_num
  rw [a2b_aux_cons_data _ _ _ _ _ f3 p3 t3]
  norm_num
  rw [a2b_aux_cons_data _ _ _ _ _ f4 p4 t4]
  norm_num
  subst he1 he2 he3
  congr <;> omega

/-- A final quad `c1 c2 c3 =` emits two bytes; the pad at quad
position 3 ends the input. -/
theorem a2b_aux_tail2 {c1 c2 c3 v1 v2 v3 e1 e2 : Nat}
    (f1 : ¬(127 < c1 ∨ c1 = 13 ∨ c1 = 10 ∨ c1 = 32)) (p1 : c1 ≠ 61)
    (t1 : table_a2b c1 = some v1)
    (f2 : ¬(127 < c2 ∨ c2 = 13 ∨ c2 = 10 ∨ c2 = 32)) (p2 : c2 ≠ 61)
    (t2 : table_a2b c2 = some v2)
    (f3 : ¬(127 < c3 ∨ c3 = 13 ∨ c3 = 10 ∨ c3 = 32)) (p3 : c3 ≠ 61)
    (t3 : table_a2b c3 = some v3)
    (hv1 : v1 < 64) (hv2 : v2 < 64) (hv3 : v3 < 64)
    (he1 : e1 = v1 * 4 + v2 / 16) (he2 : e2 = v2 % 16 * 16 + v3 / 4) (acc : List Nat) :
    a2b_aux [c1, c2, c3, 61] 0 0 0 acc = some (acc.reverse ++ [e1, e2]) := by
  rw [a2b_aux_cons_data _ _ _ _ _ f1 p1 t1]
  norm_num
  rw [a2b_aux_cons_data _ _ _ _ _ f2 p2 t2]
  norm_num
  rw [a2b_aux_cons_data _ _ _ _ _ f3 p3 t3]
  norm_num
  simp only [a2b_aux]
  norm_num
  subst he1 he2
  constructor <;> omega

/-- A final quad `c1 c2 = =` emits one byte; the first pad at quad
position 2, followed by another pad, ends the input. -/
theorem a2b_aux_tail1 {c1 c2 v1 v2 e1 : Nat}
    (f1 : ¬(127 < c1 ∨ c1 = 13 ∨ c1 = 10 ∨ c1 = 32)) (p1 : c1 ≠ 61)
    (t1 : table_a2b c1 = some v1)
    (f2 : ¬(127 < c2 ∨ c2 = 13 ∨ c2 = 10 ∨ c2 = 32)) (p2 : c2 ≠ 61)
    (t2 : table_a2b c2 = some v2)
    (hv1 : v1 < 64) (hv2 : v2 < 64)
    (he1 : e1 = v1 * 4 + v2 / 16) (acc : List Nat) :
    a2b_aux [c1, c2, 61, 61] 0 0 0 acc = some (acc.reverse ++ [e1]) := by
  rw [a2b_aux_cons_data _ _ _ _ _ f1 p1 t1]
  norm_num
  rw [a2b_aux_cons_data _ _ _ _ _ f2 p2 t2]
  norm_num
  simp only [a2b_aux, findValid, table_a2b]
  norm_num
  omega

theorem a2b_aux_nil (acc : List Nat) : a2b_aux [] 0 0 0 acc = some acc.reverse := by
  simp [a2b_aux]

/-- The decoder inverts the encoder on translated canonical output. -/
theorem a2b_of_encode (b : List Nat) : (∀ x ∈ b, x < 256) → ∀ acc : List Nat,
    a2b_aux ((urlsafe_b64encode b).map dtr) 0 0 0 acc = some (acc.reverse ++ b) := by
  induction b using urlsafe_b64encode.induct with
  | case1 b1 b2 b3 rest ih =>
    intro hb acc
    have h1 : b1 < 256 := hb b1 (by simp)
    have h2 : b2 < 256 := hb b2 (by simp)
    have h3 : b3 < 256 := hb b3 (by simp)
    obtain ⟨k1, k1p, k1t⟩ := dch_facts (b1 / 4) (by omega)
    obtain ⟨k2, k2p, k2t⟩ := dch_facts (b1 % 4 * 16 + b2 / 16) (by omega)
    obtain ⟨k3, k3p, k3t⟩ := dch_facts (b2 % 16 * 4 + b3 / 64) (by omega)
    obtain ⟨k4, k4p, k4t⟩ := dch_facts (b3 % 64) (by omega)
    simp only [urlsafe_b64encode, List.map_cons]
    rw [a2b_aux_quad k1 k1p k1t k2 k2p k2t k3 k3p k3t k4 k4p k4t
      (by omega) (by omega) (by omega) (by omega)
      (show b1 = b1 / 4 * 4 + (b1 % 4 * 16 + b2 / 16) / 16 by omega)
      (show b2 = (b1 % 4 * 16 + b2 / 16) % 16 * 16 + (b2 % 16 * 4 + b3 / 64) / 4 by omega)
      (show b3 = (b2 % 16 * 4 + b3 / 64) % 4 * 64 + b3 % 64 by omega)]
    rw [ih (fun x hx => hb x (by simp [hx])) (b3 :: b2 :: b1 :: acc)]
    simp
  | case2 b1 b2 =>
    intro hb acc
    have h1 : b1 < 256 := hb b1 (by simp)
    have h2 : b2 < 256 := hb b2 (by simp)
    obtain ⟨k1, k1p, k1t⟩ := dch_facts (b1 / 4) (by omega)
    obtain ⟨k2, k2p, k2t⟩ := dch_facts (b1 % 4 * 16 + b2 / 16) (by omega)
    obtain ⟨k3, k3p, k3t⟩ := dch_facts (b2 % 16 * 4) (by omega)
    simp only [urlsafe_b64encode, List.map_cons, List.map_nil, dtr_61]
    rw [a2b_aux_tail2 k1 k1p k1t k2 k2p k2t k3 k3p k3t
      (by omega) (by omega) (by omega)
      (show b1 = b1 / 4 * 4 + (b1 % 4 * 16 + b2 / 16) / 16 by omega)
      (show b2 = (b1 % 4 * 16 + b2 / 16) % 16 * 16 + b2 % 16 * 4 / 4 by omega)]
  | case3 b1 =>
    intro hb acc
    have h1 : b1 < 256 := hb b1 (by simp)
    obtain ⟨k1, k1p, k1t⟩ := dch_facts (b1 / 4) (by omega)
    obtain ⟨k2, k2p, k2t⟩ := dch_facts (b1 % 4 * 16) (by omega)
    simp only [urlsafe_b64encode, List.map_cons, List.map_nil, dtr_61]
    rw [a2b_aux_tail1 k1 k1p k1t k2 k2p k2t (by omega) (by omega)
      (show b1 = b1 / 4 * 4 + b1 % 4 * 16 / 16 by omega)]
  | case4 =>
    intro hb acc
    simp only [urlsafe_b64encode, List.map_nil, a2b_aux_nil, List.append_nil]

/-- Trailing-pad stripping, the `rstrip("=")` part of
`webSafeAndUnPad`. -/
def stripPad (s : List Nat) : List Nat :=
  (s.reverse.dropWhile fun c => c = 61).reverse

theorem map_eq_self {l : List Nat} {f : Nat → Nat} (h : ∀ c ∈ l, f c = c) : l.map f = l :=
  (List.map_congr_left (g := id) h).trans (List.map_id l)

theorem mem_encode_ne (b : List Nat) : ∀ c ∈ urlsafe_b64encode b, c ≠ 43 ∧ c ≠ 47 := by
  induction b using urlsafe_b64encode.induct with
  | case1 b1 b2 b3 rest ih =>
    intro c hc
    simp only [urlsafe_b64encode, List.mem_cons] at hc
    rcases hc with rfl | rfl | rfl | rfl | hc
    · exact ⟨(b64Char_ne _).1, (b64Char_ne _).2.1⟩
    · exact ⟨(b64Char_ne _).1, (b64Char_ne _).2.1⟩
    · exact ⟨(b64Char_ne _).1, (b64Char_ne _).2.1⟩
    · exact ⟨(b64Char_ne _).1, (b64Char_ne _).2.1⟩
    · exact ih c hc
  | case2 b1 b2 =>
    intro c hc
    simp only [urlsafe_b64encode, List.mem_cons, List.not_mem_nil, or_false] at hc
    rcases hc with rfl | rfl | rfl | rfl <;>
      first
        | exact ⟨(b64Char_ne _).1, (b64Char_ne _).2.1⟩
        | exact ⟨by omega, by omega⟩
  | case3 b1 =>
    intro c hc
    simp only [urlsafe_b64encode, List.mem_cons, List.not_mem_nil, or_false] at hc
    rcases hc with rfl | rfl | rfl | rfl <;>
      first
        | exact ⟨(b64Char_ne _).1, (b64Char_ne _).2.1⟩
        | exact ⟨by omega, by omega⟩
  | case4 =>
    intro c hc
    simp [urlsafe_b64encode] at hc

theorem webSafeAndUnPad_eq_stripPad {s : List Nat} (h : ∀ c ∈ s, c ≠ 43 ∧ c ≠ 47) :
    webSafeAndUnPad s = stripPad s := by
  rw [webSafeAndUnPad, stripPad,
    map_eq_self (f := fun c => if c = 43 then 45 else c)
      (fun c hc => if_neg (h c hc).1),
    map_eq_self (f := fun c => if c = 47 then 95 else c)
      (fun c hc => if_neg (h c hc).2)]

theorem stripPad_append (g t : List Nat) :
    stripPad (g ++ t) = if stripPad t = [] then stripPad g else g ++ stripPad t := by
  simp only [stripPad, List.reverse_append, List.dropWhile_append]
  cases h : List.dropWhile (fun c => decide (c = 61)) t.reverse with
  | nil => simp [h]
  | cons a l => simp [h, List.reverse_append]

theorem padding_append (l1 l2 : List Nat) (h : l1.length % 4 = 0) :
    padding (l1 ++ l2) = l1 ++ padding l2 := by
  have hl : (l1 ++ l2).length % 4 = l2.length % 4 := by
    simp only [List.length_append]
    omega
  simp only [padding, hl]
  split_ifs <;> simp

theorem padding_stripPad_encode (b : List Nat) :
    padding (stripPad (urlsafe_b64encode b)) = urlsafe_b64encode b := by
  induction b using urlsafe_b64encode.induct with
  | case1 b1 b2 b3 rest ih =>
    simp only [urlsafe_b64encode]
    rw [show ∀ (x1 x2 x3 x4 : Nat) (l : List Nat), x1 :: x2 :: x3 :: x4 :: l =
      [x1, x2, x3, x4] ++ l from fun _ _ _ _ _ => rfl]
    rw [stripPad_append]
    by_cases hnil : stripPad (urlsafe_b64encode rest) = []
    · rw [if_pos hnil]
      have ht : urlsafe_b64encode rest = [] := by
        have h2 := ih
        rw [hnil] at h2
        simpa [padding] using h2.symm
      rw [ht]
      have hc4 : ¬(b64Char (b3 % 64) = 61) := (b64Char_ne _).2.2
      simp [stripPad, List.dropWhile_cons, hc4, padding]
    · rw [if_neg hnil, padding_append _ _ (by simp), ih]
  | case2 b1 b2 =>
    have hc3 : ¬(b64Char (b2 % 16 * 4) = 61) := (b64Char_ne _).2.2
    simp [urlsafe_b64encode, stripPad, List.dropWhile_cons, hc3, padding]
  | case3 b1 =>
    have hc2 : ¬(b64Char (b1 % 4 * 16) = 61) := (b64Char_ne _).2.2
    simp [urlsafe_b64encode, stripPad, List.dropWhile_cons, hc2, padding]
  | case4 =>
    simp [urlsafe_b64encode, stripPad, padding]

/-- Transport round-trip: decoding an encoded byte string restores it
exactly. -/
theorem websafe_decode_encode (b : List Nat) (hb : ∀ x ∈ b, x < 256) :
    websafe_base64_decode (websafe_base64_encode b) = some b := by
  rw [websafe_base64_decode, websafe_base64_encode,
    webSafeAndUnPad_eq_stripPad (mem_encode_ne b),
    padding_stripPad_encode, urlsafe_b64decode_eq, a2b_base64]
  simpa using a2b_of_encode b hb []

theorem a2b_aux_bound : ∀ (l : List Nat) (qp lc lb : Nat) (acc s : List Nat),
    (∀ x ∈ acc, x < 256) → a2b_aux l qp lc lb acc = some s → ∀ x ∈ s, x < 256 := by
  intro l
  induction l with
  | nil =>
    intro qp lc lb acc s hacc h
    simp only [a2b_aux] at h
    split_ifs at h
    · injection h with h2
      subst h2
      intro x hx
      exact hacc x (List.mem_reverse.mp hx)
  | cons c rest ih =>
    intro qp lc lb acc s hacc h
    simp only [a2b_aux] at h
    by_cases h1 : 127 < c ∨ c = 13 ∨ c = 10 ∨ c = 32
    · rw [if_pos h1] at h
      exact ih _ _ _ _ _ hacc h
    rw [if_neg h1] at h
    by_cases h2 : c = 61
    · rw [if_pos h2] at h
      by_cases h3 : qp < 2 ∨ qp = 2 ∧ findValid rest ≠ some 61
      · rw [if_pos h3] at h
        exact ih _ _ _ _ _ hacc h
      · rw [if_neg h3] at h
        injection h with h4
        subst h4
        intro x hx
        exact hacc x (List.mem_reverse.mp hx)
    rw [if_neg h2] at h
    cases htab : table_a2b c with
    | none =>
      simp only [htab] at h
      exact ih _ _ _ _ _ hacc h
    | some v =>
      simp only [htab] at h
      by_cases h4 : 8 ≤ lb + 6
      · rw [if_pos h4] at h
        refine ih _ _ _ _ _ ?_ h
        intro x hx
        rcases List.mem_cons.mp hx with rfl | hx
        · omega
        · exact hacc x hx
      · rw [if_neg h4] at h
        exact ih _ _ _ _ _ hacc h

/-- Every byte produced by the transport decoder is below 256. -/
theorem websafe_decode_bound {tok s : List Nat} (h : websafe_base64_decode tok = some s) :
    ∀ x ∈ s, x < 256 := by
  rw [websafe_base64_decode, urlsafe_b64decode_eq, a2b_base64] at h
  exact a2b_aux_bound _ _ _ _ _ _ (by simp) h

theorem getD_take {l : List Nat} {n i : Nat} (h : i < n) (d : Nat) :
    (l.take n).getD i d = l.getD i d := by
  rw [List.getD_eq_getElem?_getD, List.getD_eq_getElem?_getD, List.getElem?_take, if_pos h]

/-! ## Evaluating `encrypt` and `decrypt` symbolically -/

/-- On an 8-byte price and 16-byte IV, `encrypt` succeeds and produces
the transport encoding of `IV ++ masked_price ++ signature`, where the
mask is the byte-wise XOR with the leading bytes of `hmac(e_key, iv)`
and the signature is the truncated `hmac(i_key, price ++ iv)`. -/
theorem encrypt_eq (price e_key i_key iv : List Nat) (hp : price.length = 8)
    (hiv : iv.length = 16) :
    encrypt price e_key i_key iv = .ok (websafe_base64_encode (iv ++
      (((List.range 8).map fun j => (my_hmac e_key iv).getD j 0 ^^^ price.getD j 0) ++
        (my_hmac i_key (price ++ iv)).take 4))) := by
  have hpadlen : ((my_hmac e_key iv).take BLOCK_SIZE).length = 20 := by
    simp [List.length_take, length_my_hmac, BLOCK_SIZE]
  have hx := sxor_eq_some ((my_hmac e_key iv).take BLOCK_SIZE) price
    CIPHERTEXT_SIZE (by rw [hpadlen]; norm_num [CIPHERTEXT_SIZE])
    (by rw [hp]; norm_num [CIPHERTEXT_SIZE])
  have hmask : ((List.range CIPHERTEXT_SIZE).map fun i =>
      ((my_hmac e_key iv).take BLOCK_SIZE).getD i 0 ^^^ price.getD i 0) =
      ((List.range 8).map fun j => (my_hmac e_key iv).getD j 0 ^^^ price.getD j 0) := by
    refine List.map_congr_left ?_
    intro i hi
    rw [List.mem_range] at hi
    rw [getD_take (by norm_num [BLOCK_SIZE, CIPHERTEXT_SIZE] at hi ⊢; omega) 0]
  rw [encrypt, hx, hmask]
  have hlen : (iv ++ (((List.range 8).map fun j =>
      (my_hmac e_key iv).getD j 0 ^^^ price.getD j 0) ++
        (my_hmac i_key (price ++ iv)).take 4)).length = 28 := by
    simp [List.length_append, hiv, List.length_take, length_my_hmac]
  simp only [SIGNATURE_SIZE, List.append_assoc]
  rw [if_pos hlen]

/-- On a decoded frame of at least 24 bytes, `decrypt` reduces to the
signature comparison on the unmasked price; only the fixed slices at
offsets 16, 24 and 28 are consulted. -/
theorem decrypt_of_decode28 {tok s : List Nat} (e_key i_key : List Nat)
    (hdec : websafe_base64_decode tok = some s) (hs : 24 ≤ s.length) :
    decrypt tok e_key i_key =
      if (my_hmac i_key ((((List.range 8).map fun j =>
            ((s.drop 16).take 8).getD j 0 ^^^ (my_hmac e_key (s.take 16)).getD j 0)) ++
          s.take 16)).take 4 = (s.drop 24).take 4 then
        Except.ok ((List.range 8).map fun j =>
          ((s.drop 16).take 8).getD j 0 ^^^ (my_hmac e_key (s.take 16)).getD j 0)
      else Except.error PriceError.integrityError := by
  have hplen : ((s.drop 16).take 8).length = 8 := by
    simp only [List.length_take, List.length_drop]
    omega
  have hx := sxor_eq_some ((s.drop 16).take 8) (my_hmac e_key (s.take 16))
    CIPHERTEXT_SIZE (by rw [hplen]; norm_num [CIPHERTEXT_SIZE])
    (by rw [length_my_hmac]; norm_num [CIPHERTEXT_SIZE])
  rw [decrypt, hdec]
  simp only [split_encoded_price, IV_SIZE, CIPHERTEXT_SIZE, SIGNATURE_SIZE] at hx ⊢
  rw [if_neg (by push_cast; omega)]
  rw [hx]

/-! ## Frame slicing and unmasking helpers -/

theorem frame_take16 {iv rest : List Nat} (hiv : iv.length = 16) :
    (iv ++ rest).take 16 = iv :=
  List.take_left' hiv

theorem frame_drop16take8 {iv mask sig : List Nat} (hiv : iv.length = 16)
    (hm : mask.length = 8) : ((iv ++ (mask ++ sig)).drop 16).take 8 = mask := by
  rw [List.drop_left' hiv, List.take_left' hm]

theorem frame_drop24take4 {iv mask sig : List Nat} (hiv : iv.length = 16)
    (hm : mask.length = 8) (hsig : sig.length = 4) :
    ((iv ++ (mask ++ sig)).drop 24).take 4 = sig := by
  rw [show iv ++ (mask ++ sig) = (iv ++ mask) ++ sig from (List.append_assoc _ _ _).symm,
    List.drop_left' (by simp [hiv, hm]), ← hsig, List.take_length]

/-- The mask computed inside `encrypt`: `sxor` of the truncated pad with
the price equals the byte-wise XOR with the leading HMAC bytes. -/
theorem mask_eq (e_key iv price : List Nat) (hp : 8 ≤ price.length) :
    sxor ((my_hmac e_key iv).take BLOCK_SIZE) price CIPHERTEXT_SIZE =
      some ((List.range 8).map fun j => (my_hmac e_key iv).getD j 0 ^^^ price.getD j 0) := by
  have hpadlen : ((my_hmac e_key iv).take BLOCK_SIZE).length = 20 := by
    simp [List.length_take, length_my_hmac, BLOCK_SIZE]
  have hx := sxor_eq_some ((my_hmac e_key iv).take BLOCK_SIZE) price
    CIPHERTEXT_SIZE (by rw [hpadlen]; norm_num [CIPHERTEXT_SIZE])
    (by norm_num [CIPHERTEXT_SIZE]; omega)
  rw [hx]
  congr 1

theorem mask_length (e_key iv price : List Nat) :
    ((List.range 8).map fun j => (my_hmac e_key iv).getD j 0 ^^^ price.getD j 0).length = 8 := by
  simp

theorem mask_bound (e_key iv price : List Nat) (hpb : ∀ x ∈ price, x < 256) :
    ∀ x ∈ (List.range 8).map fun j => (my_hmac e_key iv).getD j 0 ^^^ price.getD j 0,
      x < 256 := by
  intro x hx
  simp only [List.mem_map, List.mem_range] at hx
  obtain ⟨j, hj, rfl⟩ := hx
  exact xor_lt_256 (getD_my_hmac_lt _ _ _) (getD_lt_256 hpb j)

theorem take_my_hmac_bound (k d : List Nat) (n : Nat) :
    ∀ x ∈ (my_hmac k d).take n, x < 256 :=
  fun _ hx => mem_my_hmac_lt (List.take_subset _ _ hx)

/-- XOR-ing the mask with the same HMAC pad again restores the price. -/
theorem unmask_eq (e_key iv price : List Nat) (hp : price.length = 8) :
    ((List.range 8).map fun j =>
      ((List.range 8).map fun i =>
        (my_hmac e_key iv).getD i 0 ^^^ price.getD i 0).getD j 0 ^^^
          (my_hmac e_key iv).getD j 0) = price := by
  refine List.ext_getElem (by simp [hp]) ?_
  intro n h1 h2
  have hn : n < 8 := by simpa using h1
  rw [List.getElem_map, List.getElem_range, getD_range_map _ _ _ hn,
    Nat.xor_comm ((my_hmac e_key iv).getD n 0) (price.getD n 0), Nat.xor_cancel_right]
  rw [List.getD_eq_getElem?_getD, List.getElem?_eq_getElem h2]
  rfl

/-! ## Claim C9 -/

/-- C9: for every 8-byte price buffer, the implementation's
price-to-integer conversion through the hexadecimal round-trip
(`int(b.encode('hex'), 16)`) equals the direct big-endian unsigned
interpretation of the buffer. -/
theorem C9_hex_path_equiv (b : List Nat) (hlen : b.length = 8) (hb : ∀ x ∈ b, x < 256) :
    int_of_hex (hex_encode b) = bytes_to_int_be b :=
  int_of_hex_hex_encode b hb

theorem C9_hex_path_equiv_witness :
    ([1, 2, 3, 4, 5, 6, 7, 255] : List Nat).length = 8 ∧
      int_of_hex (hex_encode [1, 2, 3, 4, 5, 6, 7, 255]) =
        bytes_to_int_be [1, 2, 3, 4, 5, 6, 7, 255] :=
  ⟨by decide, C9_hex_path_equiv _ (by decide) (by decide)⟩

/-! ## Claim C4 -/

/-- C4: for every `e_key`, IV and 8-byte price buffer, the masked price
computed by `encrypt` (`sxor` of the `BLOCK_SIZE`-truncated pad with the
price) is the byte-wise XOR of the price with the first
`CIPHERTEXT_SIZE` bytes of `hmac_sha1(e_key, iv)`, and applying `sxor`
against the same pad once more (as `decrypt` does) restores the price:
the mask is its own inverse. -/
theorem C4_mask_xor (e_key iv price : List Nat) (hp : price.length = 8) :
    sxor ((my_hmac e_key iv).take BLOCK_SIZE) price CIPHERTEXT_SIZE =
      some ((List.range 8).map fun j => (my_hmac e_key iv).getD j 0 ^^^ price.getD j 0) ∧
    sxor ((List.range 8).map fun j => (my_hmac e_key iv).getD j 0 ^^^ price.getD j 0)
      (my_hmac e_key iv) CIPHERTEXT_SIZE = some price := by
  refine ⟨mask_eq e_key iv price (by omega), ?_⟩
  have hx := sxor_eq_some
    ((List.range 8).map fun j => (my_hmac e_key iv).getD j 0 ^^^ price.getD j 0)
    (my_hmac e_key iv) CIPHERTEXT_SIZE
    (by rw [mask_length]; norm_num [CIPHERTEXT_SIZE])
    (by rw [length_my_hmac]; norm_num [CIPHERTEXT_SIZE])
  rw [hx]
  congr 1
  simpa [CIPHERTEXT_SIZE] using unmask_eq e_key iv price hp

theorem C4_mask_xor_witness :
    ([10, 20, 30, 40, 50, 60, 70, 80] : List Nat).length = 8 ∧
      (sxor ((my_hmac [1] [2]).take BLOCK_SIZE) [10, 20, 30, 40, 50, 60, 70, 80]
          CIPHERTEXT_SIZE =
        some ((List.range 8).map fun j =>
          (my_hmac [1] [2]).getD j 0 ^^^ ([10, 20, 30, 40, 50, 60, 70, 80] : List Nat).getD j 0) ∧
      sxor ((List.range 8).map fun j =>
          (my_hmac [1] [2]).getD j 0 ^^^ ([10, 20, 30, 40, 50, 60, 70, 80] : List Nat).getD j 0)
        (my_hmac [1] [2]) CIPHERTEXT_SIZE = some [10, 20, 30, 40, 50, 60, 70, 80]) :=
  ⟨by decide, C4_mask_xor [1] [2] [10, 20, 30, 40, 50, 60, 70, 80] (by decide)⟩

/-! ## Claim C3 -/

/-- C3: every call to `encrypt_price` whose IV is not exactly 16 bytes
or whose price does not fit in 8 bytes fails with the distinct
`InvalidInput` failure value, and no token is returned. -/
theorem C3_invalid_input (price : Nat) (e_key i_key iv : List Nat)
    (h : iv.length ≠ 16 ∨ 2 ^ 64 ≤ price) :
    encrypt_price price e_key i_key iv = .error .invalidInput := by
  rw [encrypt_price, if_pos (by simpa [IV_SIZE, CIPHERTEXT_SIZE] using h)]

theorem C3_invalid_input_witness :
    (([] : List Nat).length ≠ 16 ∨ 2 ^ 64 ≤ 5) ∧
      encrypt_price 5 [1] [2] [] = .error .invalidInput :=
  ⟨Or.inl (by decide), C3_invalid_input 5 [1] [2] [] (Or.inl (by decide))⟩

/-! ## Claim C1 -/

/-- C1: for every price below `2^64`, every pair of keys and every
16-byte IV, decrypting the token produced by encryption with the same
keys recovers the original price. -/
theorem C1_roundtrip (price : Nat) (e_key i_key iv : List Nat) (hprice : price < 2 ^ 64)
    (hiv : iv.length = 16) (hivb : ∀ x ∈ iv, x < 256) :
    ∃ tok, encrypt_price price e_key i_key iv = .ok tok ∧
      decrypt_price tok e_key i_key = .ok price := by
  have hpblen : (toBytesBE CIPHERTEXT_SIZE price).length = 8 := by
    rw [length_toBytesBE]
    rfl
  have hpbb : ∀ x ∈ toBytesBE CIPHERTEXT_SIZE price, x < 256 := fun _ hx => mem_toBytesBE_lt hx
  have henc := encrypt_eq (toBytesBE CIPHERTEXT_SIZE price) e_key i_key iv hpblen hiv
  have hmlen := mask_length e_key iv (toBytesBE CIPHERTEXT_SIZE price)
  have hslen : ((my_hmac i_key (toBytesBE CIPHERTEXT_SIZE price ++ iv)).take 4).length = 4 := by
    simp [List.length_take, length_my_hmac]
  have hflen : (iv ++ (((List.range 8).map fun j =>
      (my_hmac e_key iv).getD j 0 ^^^ (toBytesBE CIPHERTEXT_SIZE price).getD j 0) ++
        (my_hmac i_key (toBytesBE CIPHERTEXT_SIZE price ++ iv)).take 4)).length = 28 := by
    simp only [List.length_append, hiv, hmlen, hslen]
  have hfb : ∀ x ∈ iv ++ (((List.range 8).map fun j =>
      (my_hmac e_key iv).getD j 0 ^^^ (toBytesBE CIPHERTEXT_SIZE price).getD j 0) ++
        (my_hmac i_key (toBytesBE CIPHERTEXT_SIZE price ++ iv)).take 4), x < 256 := by
    intro x hx
    rcases List.mem_append.mp hx with hx | hx
    · exact hivb x hx
    rcases List.mem_append.mp hx with hx | hx
    · exact mask_bound e_key iv _ hpbb x hx
    · exact take_my_hmac_bound _ _ 4 x hx
  have hdec := websafe_decode_encode _ hfb
  have hD := decrypt_of_decode28 e_key i_key hdec (by rw [hflen]; norm_num)
  rw [frame_take16 hiv, frame_drop16take8 hiv hmlen, frame_drop24take4 hiv hmlen hslen,
    unmask_eq e_key iv (toBytesBE CIPHERTEXT_SIZE price) hpblen, if_pos rfl] at hD
  have hEP : encrypt_price price e_key i_key iv =
      encrypt (toBytesBE CIPHERTEXT_SIZE price) e_key i_key iv := by
    rw [encrypt_price, if_neg (by simp [IV_SIZE, CIPHERTEXT_SIZE, hiv]; omega)]
  refine ⟨_, hEP.trans henc, ?_⟩
  rw [decrypt_price, hD]
  simp only [Except.map]
  rw [int_of_hex_hex_encode _ hpbb, bytes_to_int_be_toBytesBE,
    Nat.mod_eq_of_lt (by norm_num [CIPHERTEXT_SIZE]; omega)]

theorem C1_roundtrip_witness :
    (1000000 < 2 ^ 64 ∧ (List.replicate 16 7 : List Nat).length = 16) ∧
      ∃ tok, encrypt_price 1000000 [101, 107] [105, 107] (List.replicate 16 7) = .ok tok ∧
        decrypt_price tok [101, 107] [105, 107] = .ok 1000000 :=
  ⟨⟨by norm_num, by decide⟩,
    C1_roundtrip 1000000 [101, 107] [105, 107] (List.replicate 16 7) (by norm_num)
      (by decide) (by decide)⟩

/-! ## Claim C8 -/

/-- C8: for every 16-byte IV and in-range price, `encrypt_price`
succeeds (its internal 28-byte length assertion never fires) and the
produced token decodes back to a frame of exactly 28 bytes. -/
theorem C8_frame_length (price : Nat) (e_key i_key iv : List Nat) (hprice : price < 2 ^ 64)
    (hiv : iv.length = 16) (hivb : ∀ x ∈ iv, x < 256) :
    ∃ tok frame, encrypt_price price e_key i_key iv = .ok tok ∧
      websafe_base64_decode tok = some frame ∧ frame.length = 28 := by
  have hpblen : (toBytesBE CIPHERTEXT_SIZE price).length = 8 := by
    rw [length_toBytesBE]
    rfl
  have hpbb : ∀ x ∈ toBytesBE CIPHERTEXT_SIZE price, x < 256 := fun _ hx => mem_toBytesBE_lt hx
  have henc := encrypt_eq (toBytesBE CIPHERTEXT_SIZE price) e_key i_key iv hpblen hiv
  have hmlen := mask_length e_key iv (toBytesBE CIPHERTEXT_SIZE price)
  have hslen : ((my_hmac i_key (toBytesBE CIPHERTEXT_SIZE price ++ iv)).take 4).length = 4 := by
    simp [List.length_take, length_my_hmac]
  have hfb : ∀ x ∈ iv ++ (((List.range 8).map fun j =>
      (my_hmac e_key iv).getD j 0 ^^^ (toBytesBE CIPHERTEXT_SIZE price).getD j 0) ++
        (my_hmac i_key (toBytesBE CIPHERTEXT_SIZE price ++ iv)).take 4), x < 256 := by
    intro x hx
    rcases List.mem_append.mp hx with hx | hx
    · exact hivb x hx
    rcases List.mem_append.mp hx with hx | hx
    · exact mask_bound e_key iv _ hpbb x hx
    · exact take_my_hmac_bound _ _ 4 x hx
  have hEP : encrypt_price price e_key i_key iv =
      encrypt (toBytesBE CIPHERTEXT_SIZE price) e_key i_key iv := by
    rw [encrypt_price, if_neg (by simp [IV_SIZE, CIPHERTEXT_SIZE, hiv]; omega)]
  refine ⟨_, _, hEP.trans henc, websafe_decode_encode _ hfb, ?_⟩
  simp only [List.length_append, hiv, hmlen, hslen]

theorem C8_frame_length_witness :
    (250 < 2 ^ 64 ∧ (List.replicate 16 1 : List Nat).length = 16) ∧
      ∃ tok frame, encrypt_price 250 [3] [4] (List.replicate 16 1) = .ok tok ∧
        websafe_base64_decode tok = some frame ∧ frame.length = 28 :=
  ⟨⟨by norm_num, by decide⟩,
    C8_frame_length 250 [3] [4] (List.replicate 16 1) (by norm_num) (by decide) (by decide)⟩

/-! ## Claims C5 and C6 -/

/-- The 8-byte price `decrypt` unmasks from a decoded frame `s`:
byte-wise XOR of the masked-price field with the leading bytes of
`hmac(e_key, IV)`. -/
def unmasked_price (e_key s : List Nat) : List Nat :=
  (List.range 8).map fun j =>
    ((s.drop 16).take 8).getD j 0 ^^^ (my_hmac e_key (s.take 16)).getD j 0

/-- C5: the signature transmitted in the frame built by `encrypt` is the
first `SIGNATURE_SIZE` (4) bytes of `hmac_sha1(i_key, price ++ IV)`, and
whenever `decrypt` succeeds, the frame's embedded signature equals the
first 4 bytes of `hmac_sha1(i_key, price ++ IV)` recomputed from the
unmasked price and the frame's IV. -/
theorem C5_signature (price e_key i_key iv : List Nat) (hp : price.length = 8)
    (hpb : ∀ x ∈ price, x < 256) (hiv : iv.length = 16) (hivb : ∀ x ∈ iv, x < 256) :
    (∃ tok frame, encrypt price e_key i_key iv = .ok tok ∧
        websafe_base64_decode tok = some frame ∧
        (split_encoded_price frame).2.2 = (my_hmac i_key (price ++ iv)).take SIGNATURE_SIZE) ∧
      ∀ tok s p, websafe_base64_decode tok = some s → s.length = 28 →
        decrypt tok e_key i_key = .ok p →
        (split_encoded_price s).2.2 =
          (my_hmac i_key (p ++ (split_encoded_price s).1)).take SIGNATURE_SIZE := by
  constructor
  · have henc := encrypt_eq price e_key i_key iv hp hiv
    have hmlen := mask_length e_key iv price
    have hslen : ((my_hmac i_key (price ++ iv)).take 4).length = 4 := by
      simp [List.length_take, length_my_hmac]
    have hfb : ∀ x ∈ iv ++ (((List.range 8).map fun j =>
        (my_hmac e_key iv).getD j 0 ^^^ price.getD j 0) ++
          (my_hmac i_key (price ++ iv)).take 4), x < 256 := by
      intro x hx
      rcases List.mem_append.mp hx with hx | hx
      · exact hivb x hx
      rcases List.mem_append.mp hx with hx | hx
      · exact mask_bound e_key iv _ hpb x hx
      · exact take_my_hmac_bound _ _ 4 x hx
    refine ⟨_, _, henc, websafe_decode_encode _ hfb, ?_⟩
    simp only [split_encoded_price, IV_SIZE, CIPHERTEXT_SIZE, SIGNATURE_SIZE]
    exact frame_drop24take4 hiv hmlen hslen
  · intro tok s p h1 h2 h3
    have hD := decrypt_of_decode28 e_key i_key h1 (by omega)
    rw [hD] at h3
    by_cases hcond : (my_hmac i_key ((((List.range 8).map fun j =>
        ((s.drop 16).take 8).getD j 0 ^^^ (my_hmac e_key (s.take 16)).getD j 0)) ++
          s.take 16)).take 4 = (s.drop 24).take 4
    · rw [if_pos hcond] at h3
      injection h3 with h3
      subst h3
      simp only [split_encoded_price, IV_SIZE, CIPHERTEXT_SIZE, SIGNATURE_SIZE]
      exact hcond.symm
    · rw [if_neg hcond] at h3
      exact absurd h3 (by simp)

theorem C5_signature_witness :
    (([9, 8, 7, 6, 5, 4, 3, 2] : List Nat).length = 8 ∧
        (List.replicate 16 11 : List Nat).length = 16) ∧
      ((∃ tok frame, encrypt [9, 8, 7, 6, 5, 4, 3, 2] [21] [22] (List.replicate 16 11) =
          .ok tok ∧ websafe_base64_decode tok = some frame ∧
          (split_encoded_price frame).2.2 =
            (my_hmac [22] ([9, 8, 7, 6, 5, 4, 3, 2] ++ List.replicate 16 11)).take
              SIGNATURE_SIZE) ∧
        ∀ tok s p, websafe_base64_decode tok = some s → s.length = 28 →
          decrypt tok [21] [22] = .ok p →
          (split_encoded_price s).2.2 =
            (my_hmac [22] (p ++ (split_encoded_price s).1)).take SIGNATURE_SIZE) :=
  ⟨⟨by decide, by decide⟩,
    C5_signature [9, 8, 7, 6, 5, 4, 3, 2] [21] [22] (List.replicate 16 11)
      (by decide) (by decide) (by decide) (by decide)⟩

/-- C6: on any token that decodes to a well-formed 28-byte frame,
`decrypt_price` fails with `IntegrityError` exactly when the 4-byte
signature recomputed from the unmasked price and the frame's IV differs
from the frame's embedded signature; when they match it returns the
8-byte unmasked price read as a big-endian unsigned integer. -/
theorem C6_integrity_iff (tok e_key i_key s : List Nat)
    (hdec : websafe_base64_decode tok = some s) (hs : s.length = 28) :
    (decrypt_price tok e_key i_key = .error .integrityError ↔
      (my_hmac i_key (unmasked_price e_key s ++ s.take 16)).take 4 ≠ (s.drop 24).take 4) ∧
    ((my_hmac i_key (unmasked_price e_key s ++ s.take 16)).take 4 = (s.drop 24).take 4 →
      decrypt_price tok e_key i_key = .ok (bytes_to_int_be (unmasked_price e_key s))) := by
  have hsb : ∀ x ∈ s, x < 256 := websafe_decode_bound hdec
  have hpb : ∀ x ∈ unmasked_price e_key s, x < 256 := by
    intro x hx
    simp only [unmasked_price, List.mem_map, List.mem_range] at hx
    obtain ⟨j, hj, rfl⟩ := hx
    exact xor_lt_256
      (getD_lt_256 (fun y hy => hsb y (List.drop_subset _ _ (List.take_subset _ _ hy))) j)
      (getD_my_hmac_lt _ _ _)
  have hD := decrypt_of_decode28 e_key i_key hdec (by omega)
  have hmain : decrypt_price tok e_key i_key =
      if (my_hmac i_key (unmasked_price e_key s ++ s.take 16)).take 4 =
          (s.drop 24).take 4 then
        Except.ok (int_of_hex (hex_encode (unmasked_price e_key s)))
      else Except.error PriceError.integrityError := by
    rw [decrypt_price, hD]
    simp only [unmasked_price]
    split_ifs with hcond
    · simp [Except.map]
    · simp [Except.map]
  constructor
  · rw [hmain]
    split_ifs with hcond
    · simp [hcond]
    · simp [hcond]
  · intro hcond
    rw [hmain, if_pos hcond, int_of_hex_hex_encode _ hpb]

theorem C6_integrity_iff_witness :
    (websafe_base64_decode (websafe_base64_encode (List.replicate 28 0)) =
        some (List.replicate 28 0) ∧ (List.replicate 28 0 : List Nat).length = 28) ∧
      ((decrypt_price (websafe_base64_encode (List.replicate 28 0)) [31] [32] =
          .error .integrityError ↔
        (my_hmac [32] (unmasked_price [31] (List.replicate 28 0) ++
          (List.replicate 28 0 : List Nat).take 16)).take 4 ≠
          ((List.replicate 28 0 : List Nat).drop 24).take 4) ∧
      ((my_hmac [32] (unmasked_price [31] (List.replicate 28 0) ++
          (List.replicate 28 0 : List Nat).take 16)).take 4 =
          ((List.replicate 28 0 : List Nat).drop 24).take 4 →
        decrypt_price (websafe_base64_encode (List.replicate 28 0)) [31] [32] =
          .ok (bytes_to_int_be (unmasked_price [31] (List.replicate 28 0))))) :=
  ⟨⟨by decide, by decide⟩,
    C6_integrity_iff (websafe_base64_encode (List.replicate 28 0)) [31] [32]
      (List.replicate 28 0) (by decide) (by decide)⟩

/-! ## Claim C10 -/

/-- C10: for tokens whose decoded buffer is strictly longer than 28
bytes, `decrypt_price` behaves exactly as on the 28-byte prefix alone
(decoded bytes past offset 28 are ignored); in particular when the
first 28 bytes form a valid frame it succeeds with the same price. -/
theorem C10_long_frames (tok e_key i_key s : List Nat)
    (hdec : websafe_base64_decode tok = some s) (hlong : 28 < s.length) :
    decrypt_price tok e_key i_key =
        decrypt_price (websafe_base64_encode (s.take 28)) e_key i_key ∧
      ∀ v, decrypt_price (websafe_base64_encode (s.take 28)) e_key i_key = .ok v →
        decrypt_price tok e_key i_key = .ok v := by
  have hsb := websafe_decode_bound hdec
  have hpre : websafe_base64_decode (websafe_base64_encode (s.take 28)) = some (s.take 28) :=
    websafe_decode_encode _ (fun x hx => hsb x (List.take_subset _ _ hx))
  have h1 := decrypt_of_decode28 e_key i_key hdec (by omega)
  have h2 := decrypt_of_decode28 e_key i_key hpre
    (by simp only [List.length_take]; omega)
  have e16 : (s.take 28).take 16 = s.take 16 := by
    rw [List.take_take]
    norm_num
  have e8 : ((s.take 28).drop 16).take 8 = (s.drop 16).take 8 := by
    rw [List.drop_take, List.take_take]
    norm_num
  have e4 : ((s.take 28).drop 24).take 4 = (s.drop 24).take 4 := by
    rw [List.drop_take, List.take_take]
    norm_num
  simp only [decrypt_price]
  rw [h1, h2, e16, e8, e4]
  exact ⟨rfl, fun _ hv => hv⟩

theorem C10_long_frames_witness :
    (websafe_base64_decode (websafe_base64_encode (List.replicate 30 2)) =
        some (List.replicate 30 2) ∧ 28 < (List.replicate 30 2 : List Nat).length) ∧
      (decrypt_price (websafe_base64_encode (List.replicate 30 2)) [41] [42] =
          decrypt_price (websafe_base64_encode ((List.replicate 30 2 : List Nat).take 28))
            [41] [42] ∧
        ∀ v, decrypt_price (websafe_base64_encode ((List.replicate 30 2 : List Nat).take 28))
            [41] [42] = .ok v →
          decrypt_price (websafe_base64_encode (List.replicate 30 2)) [41] [42] = .ok v) :=
  ⟨⟨by decide, by decide⟩,
    C10_long_frames (websafe_base64_encode (List.replicate 30 2)) [41] [42]
      (List.replicate 30 2) (by decide) (by decide)⟩

/-! ## Claim C2 -/

deriving instance DecidableEq for Except

/-- The masked price of a valid frame for encryption key `[101]`,
all-zero IV and price `1000000`. -/
def c2_mask : List Nat :=
  (List.range 8).map fun j =>
    (my_hmac [101] (List.replicate 16 0)).getD j 0 ^^^ (toBytesBE 8 1000000).getD j 0

/-- The matching 4-byte signature under integrity key `[105]`. -/
def c2_sig : List Nat :=
  (my_hmac [105] (toBytesBE 8 1000000 ++ List.replicate 16 0)).take 4

/-- A valid 28-byte frame for keys `[101]`/`[105]` and price `1000000`,
extended by one extra byte to a 29-byte decoded buffer. -/
def c2_frame : List Nat :=
  List.replicate 16 0 ++ (c2_mask ++ (c2_sig ++ [0]))

/-- C2 counterexample: a token whose transport decoding yields 29 bytes
(not 28) on which `decrypt_price` nevertheless succeeds — the claim that
every decoded length other than 28 is rejected as a malformed frame is
false of the code, which only requires the length to exceed 20. -/
theorem C2_length_counterexample :
    websafe_base64_decode (websafe_base64_encode c2_frame) = some c2_frame ∧
      c2_frame.length = 29 ∧
      decrypt_price (websafe_base64_encode c2_frame) [101] [105] = .ok 1000000 := by
  have hpblen : (toBytesBE 8 1000000).length = 8 := length_toBytesBE 8 1000000
  have hmlen : c2_mask.length = 8 := mask_length [101] (List.replicate 16 0) (toBytesBE 8 1000000)
  have hslen : c2_sig.length = 4 := by
    simp [c2_sig, List.length_take, length_my_hmac]
  have hfb : ∀ x ∈ c2_frame, x < 256 := by
    intro x hx
    rcases List.mem_append.mp hx with hx | hx
    · have := List.eq_of_mem_replicate hx
      omega
    rcases List.mem_append.mp hx with hx | hx
    · exact mask_bound [101] (List.replicate 16 0) (toBytesBE 8 1000000)
        (fun _ h => mem_toBytesBE_lt h) x hx
    rcases List.mem_append.mp hx with hx | hx
    · exact take_my_hmac_bound _ _ 4 x hx
    · simp only [List.mem_singleton] at hx
      omega
  have hdec := websafe_decode_encode c2_frame hfb
  have hlen : c2_frame.length = 29 := by
    simp [c2_frame, List.length_append, hmlen, hslen]
  refine ⟨hdec, hlen, ?_⟩
  have hD := decrypt_of_decode28 [101] [105] hdec (by rw [hlen]; norm_num)
  have e16 : c2_frame.take 16 = List.replicate 16 0 := frame_take16 (by simp)
  have e8 : (c2_frame.drop 16).take 8 = c2_mask := frame_drop16take8 (by simp) hmlen
  have e4 : (c2_frame.drop 24).take 4 = c2_sig := by
    rw [show c2_frame = (List.replicate 16 0 ++ c2_mask) ++ (c2_sig ++ [0]) by
      simp [c2_frame, List.append_assoc]]
    rw [List.drop_left' (by simp [hmlen])]
    exact List.take_left' hslen
  rw [e16, e8, e4] at hD
  simp only [c2_mask] at hD
  rw [unmask_eq [101] (List.replicate 16 0) (toBytesBE 8 1000000) hpblen] at hD
  rw [if_pos (by rw [c2_sig])] at hD
  rw [decrypt_price, hD]
  simp only [Except.map]
  rw [int_of_hex_hex_encode _ (fun _ h => mem_toBytesBE_lt h), bytes_to_int_be_toBytesBE]
  norm_num

/-- C2 (amended): every decoded length **below** 28 is rejected —
length at most 20 by the `ciphertext_size > 0` assertion before any
unmasking, lengths 21–23 by an index error inside `sxor`, and lengths
24–27 by the signature comparison; decoded lengths above 28 are not
rejected. -/
theorem C2_short_frames_fail (tok e_key i_key s : List Nat)
    (hdec : websafe_base64_decode tok = some s) (hshort : s.length < 28) :
    (∃ err, decrypt_price tok e_key i_key = .error err) ∧
      (s.length ≤ 20 → decrypt_price tok e_key i_key = .error .assertCiphertext) := by
  rcases Nat.lt_or_ge 20 s.length with h21 | h20
  · have hno20 : ¬s.length ≤ 20 := by omega
    rcases Nat.lt_or_ge s.length 24 with h24 | h24
    · have hx : sxor ((s.drop 16).take 8) (my_hmac e_key (s.take 16)) CIPHERTEXT_SIZE =
          none := by
        refine sxor_eq_none _ _ _ ?_
        simp only [CIPHERTEXT_SIZE, List.length_take, List.length_drop, length_my_hmac]
        omega
      have hval : decrypt_price tok e_key i_key = .error .indexError := by
        rw [decrypt_price, decrypt, hdec]
        simp only [split_encoded_price, IV_SIZE, CIPHERTEXT_SIZE, SIGNATURE_SIZE] at hx ⊢
        rw [if_neg (by push_cast; omega), hx]
        rfl
      exact ⟨⟨_, hval⟩, fun h => absurd h hno20⟩
    · have hD := decrypt_of_decode28 e_key i_key hdec h24
      have hcond : ¬((my_hmac i_key ((((List.range 8).map fun j =>
          ((s.drop 16).take 8).getD j 0 ^^^ (my_hmac e_key (s.take 16)).getD j 0)) ++
            s.take 16)).take 4 = (s.drop 24).take 4) := by
        intro heq
        have hll := congrArg List.length heq
        simp only [List.length_take, length_my_hmac, List.length_drop] at hll
        omega
      have hval : decrypt_price tok e_key i_key = .error .integrityError := by
        rw [decrypt_price, hD, if_neg hcond]
        rfl
      exact ⟨⟨_, hval⟩, fun h => absurd h hno20⟩
  · have hval : decrypt_price tok e_key i_key = .error .assertCiphertext := by
      rw [decrypt_price, decrypt, hdec]
      simp only [IV_SIZE, SIGNATURE_SIZE]
      rw [if_pos (by push_cast; omega)]
      rfl
    exact ⟨⟨_, hval⟩, fun _ => hval⟩

theorem C2_short_frames_fail_witness :
    (websafe_base64_decode (websafe_base64_encode [1, 2, 3]) = some [1, 2, 3] ∧
        ([1, 2, 3] : List Nat).length < 28) ∧
      ((∃ err, decrypt_price (websafe_base64_encode [1, 2, 3]) [51] [52] = .error err) ∧
        (([1, 2, 3] : List Nat).length ≤ 20 →
          decrypt_price (websafe_base64_encode [1, 2, 3]) [51] [52] =
            .error .assertCiphertext)) :=
  ⟨⟨by decide, by decide⟩,
    C2_short_frames_fail (websafe_base64_encode [1, 2, 3]) [51] [52] [1, 2, 3]
      (by decide) (by decide)⟩

/-! ## Claim C7 -/

/-- Characters of the URL-safe Base64 data alphabet
(`A-Z a-z 0-9 - _`). -/
def isUrlChar (c : Nat) : Prop :=
  (65 ≤ c ∧ c ≤ 90) ∨ (97 ≤ c ∧ c ≤ 122) ∨ (48 ≤ c ∧ c ≤ 57) ∨ c = 45 ∨ c = 95

instance (c : Nat) : Decidable (isUrlChar c) := by
  unfold isUrlChar
  infer_instance

theorem isUrlChar_lt {c : Nat} (h : isUrlChar c) : c < 128 := by
  rcases h with h | h | h | h | h <;> omega

theorem urlChar_facts : ∀ c, c < 128 → isUrlChar c →
    ¬(127 < dtr c ∨ dtr c = 13 ∨ dtr c = 10 ∨ dtr c = 32) ∧ dtr c ≠ 61 ∧
      (table_a2b (dtr c)).isSome := by
  decide

/-- A run of data characters only shifts six bits in per character, so
an input whose valid-character count leaves residual bits fails with
the `Incorrect padding` error. -/
theorem a2b_aux_all_data_none : ∀ (s : List Nat), (∀ c ∈ s, isUrlChar c) →
    ∀ qp lc lb : Nat, ∀ acc : List Nat, lb < 8 → (lb + 6 * s.length) % 8 ≠ 0 →
      a2b_aux (s.map dtr) qp lc lb acc = none := by
  intro s
  induction s with
  | nil =>
    intro _ qp lc lb acc hlb hmod
    simp only [List.length_nil, Nat.mul_zero, Nat.add_zero] at hmod
    simp only [List.map_nil, a2b_aux]
    rw [if_neg (by omega)]
  | cons c rest ih =>
    intro h qp lc lb acc hlb hmod
    have hc : isUrlChar c := h c (List.mem_cons_self c rest)
    obtain ⟨f, p, t⟩ := urlChar_facts c (isUrlChar_lt hc) hc
    obtain ⟨v, hv⟩ := Option.isSome_iff_exists.mp t
    rw [List.map_cons, a2b_aux_cons_data _ _ _ _ _ f p hv]
    have hrest : ∀ c ∈ rest, isUrlChar c := fun c hc' => h c (List.mem_cons_of_mem _ hc')
    have hlen : (c :: rest).length = rest.length + 1 := rfl
    rw [hlen] at hmod
    split_ifs with h8
    · exact ih hrest _ _ _ _ (by omega) (by omega)
    · exact ih hrest _ _ _ _ (by omega) (by omega)

/-- Failure of the transport decode on any all-data-character string
whose length is 1 mod 4. -/
theorem websafe_decode_remainder1 (s : List Nat) (hs : ∀ c ∈ s, isUrlChar c)
    (hlen : s.length % 4 = 1) : websafe_base64_decode s = none := by
  have hpad : padding s = s := by
    rw [padding, if_neg (by omega), if_neg (by omega)]
  rw [websafe_base64_decode, hpad, urlsafe_b64decode_eq, a2b_base64]
  exact a2b_aux_all_data_none s hs 0 0 0 [] (by norm_num) (by omega)

/-- C7 counterexample: the five-character token `AAAA=` has length
1 mod 4, yet the code's transport decode (CPython 2's lenient
`a2b_base64`, which skips a pad at quad position 0) succeeds on it,
returning three bytes — so "every encoded string whose length mod 4
equals 1 fails decode" is false of the code. -/
theorem C7_remainder1_counterexample :
    ([65, 65, 65, 65, 61] : List Nat).length % 4 = 1 ∧
      websafe_base64_decode [65, 65, 65, 65, 61] = some [0, 0, 0] :=
  ⟨by decide, by decide⟩

/-- C7 (amended): the transport codec round-trips byte buffers of
length 0, 1, 2 and 28 (all `len mod 4` remainders of the stripped
encoding), and every string **over the URL-safe data alphabet** whose
length is 1 mod 4 has no valid padding restoration and fails decode
(strings containing pad or invalid characters can still decode due to
the lenient `a2b_base64` skipping behaviour). -/
theorem C7_padding_roundtrip (b s : List Nat) (hb : ∀ x ∈ b, x < 256)
    (hblen : b.length = 0 ∨ b.length = 1 ∨ b.length = 2 ∨ b.length = 28)
    (hs : ∀ c ∈ s, isUrlChar c) (hslen : s.length % 4 = 1) :
    websafe_base64_decode (websafe_base64_encode b) = some b ∧
      websafe_base64_decode s = none :=
  ⟨websafe_decode_encode b hb, websafe_decode_remainder1 s hs hslen⟩

theorem C7_padding_roundtrip_witness :
    ((∀ x ∈ ([255, 0] : List Nat), x < 256) ∧
        (([255, 0] : List Nat).length = 0 ∨ ([255, 0] : List Nat).length = 1 ∨
          ([255, 0] : List Nat).length = 2 ∨ ([255, 0] : List Nat).length = 28) ∧
        (∀ c ∈ ([66] : List Nat), isUrlChar c) ∧ ([66] : List Nat).length % 4 = 1) ∧
      (websafe_base64_decode (websafe_base64_encode [255, 0]) = some [255, 0] ∧
        websafe_base64_decode [66] = none) :=
  ⟨⟨by decide, by decide, by decide, by decide⟩,
    C7_padding_roundtrip [255, 0] [66] (by decide) (by decide) (by decide) (by decide)⟩

end CryptoPrice
